import Mathlib

/-!
Verification of the atlas-rag-pipeline scripts.

Shallow Lean embedding of the repository's core logic:
* the batched embedding-backfill loop of `update_embeddings.py` and
  `update_voyage_ai_embeddings.py` (batch accumulation, flush at threshold,
  final partial flush, per-batch bulk-write error handling),
* the VoyageAI retry wrapper `get_embeddings`,
* the index-readiness poll loop `wait_for_index_ready` and the two
  `ensure_vector_index` variants of `manage_vector_index.py` and
  `manage_fullplot_vector_index.py`,
* the retrieval merge step of `rag_with_input.py`
  (`retrieve_relevant_docs`),
* the nested-path extractor `extract_value` and the scan predicates of the
  backfill scripts over a model of Python/BSON values.
-/

/- ============================================================
   Backfill batching loop
   (`update_embeddings.py` lines 75-119,
    `update_voyage_ai_embeddings.py` lines 168-207)

   The driver loop is
     for doc in cursor:
         batch.append(doc)
         if len(batch) >= BATCH_SIZE:
             count = process_batch(batch, count)
             batch = []
     if batch:
         count = process_batch(batch, count)
   ============================================================ -/

/-- The sequence of non-empty batches handed to `process_batch` by the
driver loop, in order: a flush happens as soon as the accumulated batch
reaches `B`, and a trailing non-empty batch is flushed after the scan. -/
def scanFlushes (B : Nat) : List α → List α → List (List α)
  | [], batch => if batch.isEmpty then [] else [batch]
  | d :: ds, batch =>
    if B ≤ (batch ++ [d]).length then (batch ++ [d]) :: scanFlushes B ds []
    else scanFlushes B ds (batch ++ [d])

/-- Externally visible effects of one `process_batch` call: one
multi-input embedding-service request, one bulk write of `n` update ops. -/
inductive BackfillEffect (α : Type) where
  | embedCall (texts : List α)
  | bulkWrite (n : Nat)
  deriving DecidableEq, Repr

/-- `process_batch(batch, count)`: an empty batch returns `count`
unchanged with no effects; otherwise one embedding call and one bulk
write happen, and `count` grows by `len(batch)` only when the bulk write
succeeds (`ok`); a failed bulk write is caught and logged, leaving
`count` unchanged, and is not re-raised. -/
def process_batch (ok : Bool) (batch : List α) (count : Nat) :
    Nat × List (BackfillEffect α) :=
  if batch.isEmpty then (count, [])
  else
    let effs := [BackfillEffect.embedCall batch, BackfillEffect.bulkWrite batch.length]
    if ok then (count + batch.length, effs) else (count, effs)

/-- The driver loop with an oracle `ok` giving the success of the bulk
write of each flush (indexed in flush order).  Returns the final running
count and the number of flushes performed. -/
def runLoop (B : Nat) (ok : Nat → Bool) :
    List α → List α → Nat → Nat → Nat × Nat
  | [], batch, i, c =>
    if batch.isEmpty then (c, i) else ((process_batch (ok i) batch c).1, i + 1)
  | d :: ds, batch, i, c =>
    let batch' := batch ++ [d]
    if B ≤ batch'.length then
      runLoop B ok ds [] (i + 1) (process_batch (ok i) batch' c).1
    else runLoop B ok ds batch' i c

/-- Sum of the sizes of the flushes whose bulk write succeeded,
starting the flush numbering at `i`. -/
def countSum (ok : Nat → Bool) : Nat → List (List α) → Nat
  | _, [] => 0
  | i, b :: bs => (if ok i then b.length else 0) + countSum ok (i + 1) bs

/- ---------- basic lemmas about the flush trace ---------- -/

theorem scanFlushes_ne_nil (B : Nat) :
    ∀ (ds batch : List α), ∀ b ∈ scanFlushes B ds batch, b ≠ [] := by
  intro ds
  induction ds with
  | nil =>
    intro batch b hb he
    simp only [scanFlushes] at hb
    split at hb
    · exact absurd hb (List.not_mem_nil b)
    · rename_i h
      rw [List.mem_singleton] at hb
      exact h (by simp [hb ▸ he])
  | cons d ds ih =>
    intro batch b hb
    simp only [scanFlushes] at hb
    split at hb
    · rcases List.mem_cons.mp hb with hb | hb
      · subst hb; simp
      · exact ih [] b hb
    · exact ih (batch ++ [d]) b hb

theorem scanFlushes_flatten (B : Nat) :
    ∀ (ds batch : List α), (scanFlushes B ds batch).flatten = batch ++ ds := by
  intro ds
  induction ds with
  | nil =>
    intro batch
    simp only [scanFlushes]
    split
    · rename_i h; simp [List.isEmpty_iff.mp h]
    · simp
  | cons d ds ih =>
    intro batch
    simp only [scanFlushes]
    split
    · simp [ih []]
    · simp [ih (batch ++ [d])]

/-- Unrolling lemma: when `k` more documents complete the batch
(`batch.length + k = B`) and at least `k` documents remain, the loop
flushes exactly once the batch filled to size `B` and restarts empty. -/
theorem scanFlushes_fill (B : Nat) :
    ∀ (k : Nat) (ds batch : List α), 1 ≤ k → batch.length + k = B →
      k ≤ ds.length →
      scanFlushes B ds batch =
        (batch ++ ds.take k) :: scanFlushes B (ds.drop k) [] := by
  intro k
  induction k with
  | zero => intro ds batch h1 _ _; omega
  | succ k ih =>
    intro ds batch _ hlen hk
    cases ds with
    | nil => simp at hk
    | cons d ds =>
      simp only [scanFlushes]
      by_cases hk0 : k = 0
      · subst hk0
        rw [if_pos (by simp; omega)]
        simp
      · rw [if_neg (by simp; omega)]
        rw [ih ds (batch ++ [d]) (by omega) (by simp; omega)
          (by simp at hk; omega)]
        simp [List.take_succ_cons, List.drop_succ_cons]

/-- When fewer than a full batch remains, the loop never reaches the
threshold and the trailing non-empty batch is flushed once at scan end. -/
theorem scanFlushes_small (B : Nat) :
    ∀ (ds batch : List α), batch.length + ds.length < B →
      scanFlushes B ds batch =
        if (batch ++ ds).isEmpty then [] else [batch ++ ds] := by
  intro ds
  induction ds with
  | nil => intro batch _; simp only [scanFlushes, List.append_nil]
  | cons d ds ih =>
    intro batch h
    simp only [scanFlushes]
    rw [if_neg (by simp at h ⊢; omega)]
    rw [ih (batch ++ [d]) (by simp at h ⊢; omega)]
    simp

/-- The driver loop is the flush trace: its final count is the sum of the
sizes of the flushes whose bulk write succeeded, and the number of
flushes it performs does not depend on the write outcomes `ok`. -/
theorem runLoop_eq (B : Nat) (ok : Nat → Bool) :
    ∀ (ds batch : List α) (i c : Nat),
      runLoop B ok ds batch i c =
        (c + countSum ok i (scanFlushes B ds batch),
         i + (scanFlushes B ds batch).length) := by
  intro ds
  induction ds with
  | nil =>
    intro batch i c
    simp only [runLoop, scanFlushes]
    split
    · simp [countSum]
    · rename_i h
      simp only [process_batch, h, if_false, countSum, List.length_singleton]
      cases hok : ok i <;> simp [hok]
  | cons d ds ih =>
    intro batch i c
    simp only [runLoop, scanFlushes]
    split
    · rename_i h
      rw [ih [] (i + 1) (process_batch (ok i) (batch ++ [d]) c).1]
      have hne : (batch ++ [d]).isEmpty = false := by simp
      simp only [process_batch, hne, if_false, countSum, List.length_cons]
      cases hok : ok i <;> simp [hok] <;> omega
    · exact ih (batch ++ [d]) i c

theorem countSum_le (ok : Nat → Bool) :
    ∀ (bs : List (List α)) (i : Nat),
      countSum ok i bs ≤ (bs.map List.length).sum := by
  intro bs
  induction bs with
  | nil => intro i; simp [countSum]
  | cons b bs ih =>
    intro i
    simp only [countSum, List.map_cons, List.sum_cons]
    have := ih (i + 1)
    cases ok i <;> simp <;> omega

theorem countSum_lt (ok : Nat → Bool) :
    ∀ (bs : List (List α)) (i j : Nat), (∀ b ∈ bs, b ≠ []) →
      j < bs.length → ok (i + j) = false →
      countSum ok i bs < (bs.map List.length).sum := by
  intro bs
  induction bs with
  | nil => intro i j _ hj _; simp at hj
  | cons b bs ih =>
    intro i j hne hj hok
    simp only [countSum, List.map_cons, List.sum_cons]
    cases j with
    | zero =>
      rw [Nat.add_zero] at hok
      simp only [hok, Bool.false_eq_true, if_false]
      have hb : 0 < b.length :=
        List.length_pos.mpr (hne b (List.mem_cons_self b bs))
      have := countSum_le ok bs (i + 1)
      omega
    | succ j =>
      have hrec : countSum ok (i + 1) bs < (bs.map List.length).sum := by
        apply ih (i + 1) j (fun x hx => hne x (List.mem_cons_of_mem b hx))
          (by simp at hj; omega)
        have : i + 1 + j = i + (j + 1) := by omega
        rw [this]; exact hok
      have hhead : (if ok i then b.length else 0) ≤ b.length := by
        cases ok i <;> simp
      omega

/-- Auxiliary fact for C10: a scan whose length is an exact multiple of
the batch size produces exactly that many flushes (all at the threshold,
none trailing). -/
theorem scanFlushes_length_of_multiple (B : Nat) (hB : 1 ≤ B) :
    ∀ (k : Nat) (docs : List α), docs.length = k * B →
      (scanFlushes B docs []).length = k := by
  intro k
  induction k with
  | zero =>
    intro docs hlen
    have : docs = [] := List.eq_nil_of_length_eq_zero (by omega)
    subst this
    simp [scanFlushes]
  | succ k ih =>
    intro docs hlen
    rw [scanFlushes_fill B B docs [] (by omega) (by simp)
      (by rw [hlen]; calc B = 1 * B := by omega
                         _ ≤ (k + 1) * B := Nat.mul_le_mul_right B (by omega))]
    rw [List.length_cons, ih (docs.drop B)
      (by rw [List.length_drop, hlen, Nat.succ_mul]; omega)]

/- ---------- claim theorems on the batching loop ---------- -/

/-- C1 (amended): for every batch size `B ≥ 3`, a scan of exactly
`2*B + 3` eligible documents performs exactly 3 flushes — two of size `B`
triggered at the batch-size threshold and one final flush of size 3
(a strict partial batch when `B > 3`).  For `B < 3` the same scan
performs more than 3 flushes, refuting the unrestricted claim. -/
theorem backfill_flush_sizes (B : Nat) (docs : List Nat) (hB : 3 ≤ B)
    (hlen : docs.length = 2 * B + 3) :
    (scanFlushes B docs []).map List.length = [B, B, 3] := by
  have hk1 : B ≤ docs.length := by omega
  have hfill1 := scanFlushes_fill B B docs [] (by omega) (by simp) hk1
  have hd1 : (docs.drop B).length = B + 3 := by
    rw [List.length_drop, hlen]; omega
  have hk2 : B ≤ (docs.drop B).length := by omega
  have hfill2 := scanFlushes_fill B B (docs.drop B) [] (by omega) (by simp) hk2
  have hd2 : ((docs.drop B).drop B).length = 3 := by
    rw [List.length_drop, hd1]; omega
  have ht1 : (docs.take B).length = B := by
    rw [List.length_take]; omega
  have ht2 : ((docs.drop B).take B).length = B := by
    rw [List.length_take, hd1]; omega
  rw [hfill1, hfill2]
  rcases Nat.lt_or_ge 3 B with hgt | hge
  · have h5 : ([] : List Nat).length + ((docs.drop B).drop B).length < B := by
      rw [List.length_nil, hd2]; omega
    rw [scanFlushes_small B ((docs.drop B).drop B) [] h5]
    have hne : ¬ ((([] : List Nat) ++ (docs.drop B).drop B).isEmpty = true) := by
      rw [List.nil_append, List.isEmpty_iff]
      intro hc
      rw [hc] at hd2
      simp at hd2
    rw [if_neg hne]
    simp only [List.map_cons, List.map_nil, List.nil_append]
    rw [ht1, ht2, hd2]
  · have hB3 : B = 3 := Nat.le_antisymm hge hB
    subst hB3
    have hk3 : 3 ≤ ((docs.drop 3).drop 3).length := by omega
    have hfill3 := scanFlushes_fill 3 3 ((docs.drop 3).drop 3) []
      (by omega) (by simp) hk3
    rw [hfill3]
    have hdrop3 : (((docs.drop 3).drop 3).drop 3) = [] :=
      List.drop_eq_nil_of_le (by omega)
    rw [hdrop3]
    have ht3 : (((docs.drop 3).drop 3).take 3).length = 3 := by
      rw [List.length_take, hd2]; omega
    have hempty : scanFlushes 3 ([] : List Nat) ([] : List Nat) = [] := rfl
    rw [hempty]
    simp only [List.map_cons, List.map_nil, List.nil_append]
    rw [ht1, ht2, ht3]

/-- C1 counterexample: at batch size `B = 2` the scan of `2*B + 3 = 7`
eligible documents performs 4 flushes (sizes `[2, 2, 2, 1]`), not the 3
flushes of sizes `[B, B, 3]` stated by the claim. -/
theorem backfill_flush_sizes_cex :
    ([0, 1, 2, 3, 4, 5, 6] : List Nat).length = 2 * 2 + 3 ∧
    (scanFlushes 2 [0, 1, 2, 3, 4, 5, 6] ([] : List Nat)).map List.length
      = [2, 2, 2, 1] ∧
    ¬ ((scanFlushes 2 [0, 1, 2, 3, 4, 5, 6] ([] : List Nat)).map List.length
      = [2, 2, 3]) := by
  decide

/-- C1 witness: instantiation at `B = 4` with 11 scanned documents. -/
theorem backfill_flush_sizes_witness :
    (scanFlushes 4 [0, 1, 2, 3, 4, 5, 6, 7, 8, 9, 10] []).map List.length
      = [4, 4, 3] :=
  backfill_flush_sizes 4 [0, 1, 2, 3, 4, 5, 6, 7, 8, 9, 10]
    (by decide) (by decide)

/-- C8: a failed bulk write in one flush is absorbed inside
`process_batch`: the loop still performs every flush (the flush count
equals the full flush trace, independent of the write outcomes), the
final count is the sum of the sizes of exactly the successfully written
batches, and a run with a failed flush reports fewer documents updated
than were scanned. -/
theorem bulk_write_failure_batch_granularity (B : Nat) (docs : List Nat)
    (ok : Nat → Bool) :
    (runLoop B ok docs [] 0 0).2 = (scanFlushes B docs []).length ∧
    (runLoop B ok docs [] 0 0).1 = countSum ok 0 (scanFlushes B docs []) ∧
    (∀ j, j < (scanFlushes B docs []).length → ok j = false →
      (runLoop B ok docs [] 0 0).1 < docs.length) := by
  have h := runLoop_eq B ok docs [] 0 0
  refine ⟨by rw [h]; simp, by rw [h]; simp, ?_⟩
  intro j hj hok
  have hsum : ((scanFlushes B docs []).map List.length).sum = docs.length := by
    rw [← List.length_flatten, scanFlushes_flatten, List.nil_append]
  have hlt := countSum_lt ok (scanFlushes B docs []) 0 j
    (scanFlushes_ne_nil B docs []) hj (by simpa using hok)
  rw [h]
  show 0 + countSum ok 0 (scanFlushes B docs []) < docs.length
  omega

/-- C8 witness: batch size 2 over 3 documents with the first bulk write
failing: both flushes still happen and only 1 of 3 documents is counted. -/
theorem bulk_write_failure_batch_granularity_witness :
    (runLoop 2 (fun i => !(i == 0)) [10, 20, 30] [] 0 0).1 < 3 :=
  (bulk_write_failure_batch_granularity 2 [10, 20, 30]
    (fun i => !(i == 0))).2.2 0 (by decide) (by decide)

/-- C10: `process_batch` on an empty batch returns the running count
unchanged and performs no embedding call and no bulk write; consequently
a scan whose document count is an exact multiple of the batch size
(`B ≥ 1`) triggers exactly `k` threshold flushes and no extra trailing
flush. -/
theorem empty_batch_noop (B k : Nat) (docs : List Nat) (ok : Bool)
    (c : Nat) (hB : 1 ≤ B) (hlen : docs.length = k * B) :
    process_batch ok ([] : List Nat) c = (c, []) ∧
    (scanFlushes B docs []).length = k := by
  exact ⟨by simp [process_batch],
    scanFlushes_length_of_multiple B hB k docs hlen⟩

/-- C10 witness: batch size 2, four scanned documents, two flushes. -/
theorem empty_batch_noop_witness :
    process_batch true ([] : List Nat) 5 = (5, []) ∧
    (scanFlushes 2 [1, 2, 3, 4] ([] : List Nat)).length = 2 :=
  empty_batch_noop 2 2 [1, 2, 3, 4] true 5 (by decide) (by decide)

/- ============================================================
   VoyageAI retry wrapper
   (`update_embeddings.py` lines 49-70,
    `update_voyage_ai_embeddings.py` lines 67-85)

   def get_embeddings(texts, retries=3, delay=2):
       for attempt in range(retries):
           try:
               ... return [item["embedding"] for item in data["data"]]
           except Exception as e:
               print(...); time.sleep(delay)
       raise RuntimeError(...)
   ============================================================ -/

/-- Observable outcome of one `get_embeddings` call: the returned
embeddings (`none` models the final `RuntimeError`), the number of POST
attempts performed, and the durations of the sleeps performed. -/
structure CallTrace (R : Type) where
  result : Option R
  attempts : Nat
  sleeps : List Nat
  deriving DecidableEq, Repr

/-- The retry loop body: `svc k` is the outcome of the `k`-th POST
attempt (`none` = the request raised).  On failure the wrapper sleeps
`delay` and retries; when the attempt budget is exhausted it raises. -/
def getEmbeddingsGo (svc : Nat → Option R) (delay : Nat) :
    Nat → Nat → CallTrace R
  | 0, k => ⟨none, k, []⟩
  | n + 1, k =>
    match svc k with
    | some r => ⟨some r, k + 1, []⟩
    | none =>
      ⟨(getEmbeddingsGo svc delay n (k + 1)).result,
       (getEmbeddingsGo svc delay n (k + 1)).attempts,
       delay :: (getEmbeddingsGo svc delay n (k + 1)).sleeps⟩

/-- `get_embeddings(texts, retries, delay)` as a function of the service
behaviour; the Python defaults are `retries = 3`, `delay = 2`. -/
def get_embeddings (svc : Nat → Option R) (retries : Nat := 3)
    (delay : Nat := 2) : CallTrace R :=
  getEmbeddingsGo svc delay retries 0

theorem getEmbeddingsGo_attempts_le (svc : Nat → Option R) (delay : Nat) :
    ∀ (n k : Nat), (getEmbeddingsGo svc delay n k).attempts ≤ k + n := by
  intro n
  induction n with
  | zero => intro k; simp [getEmbeddingsGo]
  | succ n ih =>
    intro k
    simp only [getEmbeddingsGo]
    split
    · simp
    · have := ih (k + 1)
      simp only
      omega

theorem getEmbeddingsGo_sleeps_fixed (svc : Nat → Option R) (delay : Nat) :
    ∀ (n k : Nat), ∀ d ∈ (getEmbeddingsGo svc delay n k).sleeps, d = delay := by
  intro n
  induction n with
  | zero => intro k d hd; simp [getEmbeddingsGo] at hd
  | succ n ih =>
    intro k d hd
    simp only [getEmbeddingsGo] at hd
    split at hd
    · simp at hd
    · simp only [List.mem_cons] at hd
      rcases hd with hd | hd
      · exact hd
      · exact ih (k + 1) d hd

/-- C2: with the configured policy of 3 attempts, `get_embeddings` makes
at most 3 POST attempts and every sleep lasts exactly `delay`; when the
service fails on attempts 0 and 1 and succeeds on attempt 2 it returns
the embeddings after exactly 3 attempts; and when attempt 2 also fails it
raises (`result = none`) after exactly 3 attempts — there is no
partial-batch skip, the failure is surfaced to the caller. -/
theorem get_embeddings_retry_policy (svc bad : Nat → Option (List Int))
    (r : List Int) (delay : Nat)
    (h0 : svc 0 = none) (h1 : svc 1 = none) (h2 : svc 2 = some r)
    (hb0 : bad 0 = none) (hb1 : bad 1 = none) (hb2 : bad 2 = none) :
    (∀ f : Nat → Option (List Int),
      (get_embeddings f 3 delay).attempts ≤ 3) ∧
    (∀ f : Nat → Option (List Int),
      ∀ d ∈ (get_embeddings f 3 delay).sleeps, d = delay) ∧
    get_embeddings svc 3 delay = ⟨some r, 3, [delay, delay]⟩ ∧
    get_embeddings bad 3 delay = ⟨none, 3, [delay, delay, delay]⟩ := by
  refine ⟨fun f => getEmbeddingsGo_attempts_le f delay 3 0,
    fun f => getEmbeddingsGo_sleeps_fixed f delay 3 0, ?_, ?_⟩
  · simp [get_embeddings, getEmbeddingsGo, h0, h1, h2]
  · simp [get_embeddings, getEmbeddingsGo, hb0, hb1, hb2]

/-- C2 witness: a service failing twice then succeeding, and one that
always fails, with the default fixed delay of 2. -/
theorem get_embeddings_retry_policy_witness :
    get_embeddings (fun k => if k < 2 then none else some [(7 : Int)]) 3 2
      = ⟨some [(7 : Int)], 3, [2, 2]⟩ ∧
    get_embeddings (fun _ => (none : Option (List Int))) 3 2
      = ⟨none, 3, [2, 2, 2]⟩ :=
  ⟨(get_embeddings_retry_policy
      (fun k => if k < 2 then none else some [(7 : Int)])
      (fun _ => none) [(7 : Int)] 2 (by decide) (by decide) (by decide)
      (by decide) (by decide) (by decide)).2.2.1,
   (get_embeddings_retry_policy
      (fun k => if k < 2 then none else some [(7 : Int)])
      (fun _ => none) [(7 : Int)] 2 (by decide) (by decide) (by decide)
      (by decide) (by decide) (by decide)).2.2.2⟩

/- ============================================================
   Index readiness polling
   (`manage_vector_index.py` lines 122-142)

   def wait_for_index_ready(index_name, poll_interval=15, timeout=900):
       start = time.time()
       while time.time() - start < timeout:
           indexes = list_vector_indexes()
           idx = next((i for i in indexes if i.get("name") == index_name), None)
           if not idx: ... retry ...
           else:
               status = idx.get("status", "UNKNOWN")
               if status.upper() == "READY": return True
           time.sleep(poll_interval)
       return False
   ============================================================ -/

/-- Observable outcome of one `wait_for_index_ready` call: the returned
boolean, the number of status polls performed, and the durations of the
sleeps performed. -/
structure WaitTrace where
  resultB : Bool
  polls : Nat
  sleeps : List Nat
  deriving DecidableEq, Repr

/-- Python's `str.upper()` on one ASCII character. -/
def pyUpperChar (c : Char) : Char :=
  if 'a' ≤ c ∧ c ≤ 'z' then Char.ofNat (c.toNat - 32) else c

/-- Python's `str.upper()` (ASCII model, enough for status strings). -/
def pyUpper (s : String) : String := String.mk (s.data.map pyUpperChar)

/-- The named index's reported status at the `k`-th poll (`none` when no
index of that name is listed yet); `READY` is detected case-insensitively
via `status.upper() == "READY"`. -/
def statusIsReady (s : Option String) : Bool :=
  match s with
  | some st => pyUpper st == "READY"
  | none => false

/-- The poll loop: at the `k`-th iteration the elapsed wall-clock time is
`k * interval` (one fixed sleep per previous iteration); the loop checks
`elapsed < timeout`, polls, returns true on READY, otherwise sleeps the
fixed `interval` and repeats.  Recursion is on a fuel bound that
dominates the number of iterations the timeout admits. -/
def waitGo (statusAt : Nat → Option String) (interval timeout : Nat) :
    Nat → Nat → WaitTrace
  | 0, k => ⟨false, k, []⟩
  | fuel + 1, k =>
    if k * interval < timeout then
      if statusIsReady (statusAt k) then ⟨true, k + 1, []⟩
      else
        ⟨(waitGo statusAt interval timeout fuel (k + 1)).resultB,
         (waitGo statusAt interval timeout fuel (k + 1)).polls,
         interval :: (waitGo statusAt interval timeout fuel (k + 1)).sleeps⟩
    else ⟨false, k, []⟩

/-- `wait_for_index_ready(index_name, poll_interval, timeout)` as a
function of the remotely reported status sequence; Python defaults are
`poll_interval = 15`, `timeout = 900`. -/
def wait_for_index_ready (statusAt : Nat → Option String)
    (interval : Nat := 15) (timeout : Nat := 900) : WaitTrace :=
  waitGo statusAt interval timeout (timeout / interval + 1) 0

theorem waitGo_never_ready (statusAt : Nat → Option String)
    (interval timeout : Nat)
    (hnever : ∀ k, statusIsReady (statusAt k) = false) :
    ∀ (fuel k : Nat), (waitGo statusAt interval timeout fuel k).resultB
      = false := by
  intro fuel
  induction fuel with
  | zero => intro k; simp [waitGo]
  | succ fuel ih =>
    intro k
    simp only [waitGo]
    split
    · rw [hnever k]
      simp only [Bool.false_eq_true, if_false]
      exact ih (k + 1)
    · simp

theorem waitGo_sleeps_fixed (statusAt : Nat → Option String)
    (interval timeout : Nat) :
    ∀ (fuel k : Nat),
      ∀ d ∈ (waitGo statusAt interval timeout fuel k).sleeps, d = interval := by
  intro fuel
  induction fuel with
  | zero => intro k d hd; simp [waitGo] at hd
  | succ fuel ih =>
    intro k d hd
    simp only [waitGo] at hd
    split at hd
    · split at hd
      · simp at hd
      · simp only [List.mem_cons] at hd
        rcases hd with hd | hd
        · exact hd
        · exact ih (k + 1) d hd
    · simp at hd

/-- C3: `wait_for_index_ready` returns `false` (it never raises: the
model is a total function into `WaitTrace`) whenever the named index's
reported status is never READY, for every poll interval and timeout; if
the status is READY on the very first poll and the timeout is positive,
it returns `true` immediately after exactly one poll with no sleep; and
every sleep it performs has the fixed duration `interval` — there is no
exponential backoff. -/
theorem wait_for_index_ready_spec (statusAt ready0 : Nat → Option String)
    (interval timeout : Nat)
    (hnever : ∀ k, statusIsReady (statusAt k) = false)
    (hready : statusIsReady (ready0 0) = true)
    (htime : 0 < timeout) :
    (wait_for_index_ready statusAt interval timeout).resultB = false ∧
    wait_for_index_ready ready0 interval timeout = ⟨true, 1, []⟩ ∧
    (∀ f : Nat → Option String,
      ∀ d ∈ (wait_for_index_ready f interval timeout).sleeps,
        d = interval) := by
  refine ⟨waitGo_never_ready statusAt interval timeout hnever _ 0, ?_,
    fun f => waitGo_sleeps_fixed f interval timeout _ 0⟩
  simp only [wait_for_index_ready, waitGo]
  rw [if_pos (by simpa using htime)]
  rw [hready]
  simp

/-- C3 witness: a status sequence that is never READY (always
`PENDING`), and one that is READY at the first poll, at the default
poll interval 15 and timeout 900. -/
theorem wait_for_index_ready_spec_witness :
    (wait_for_index_ready (fun _ => some "PENDING") 15 900).resultB = false ∧
    wait_for_index_ready (fun _ => some "READY") 15 900 = ⟨true, 1, []⟩ :=
  ⟨(wait_for_index_ready_spec (fun _ => some "PENDING")
      (fun _ => some "READY") 15 900 (fun _ => rfl)
      (by decide) (by decide)).1,
   (wait_for_index_ready_spec (fun _ => some "PENDING")
      (fun _ => some "READY") 15 900 (fun _ => rfl)
      (by decide) (by decide)).2.1⟩

/- ============================================================
   Vector index management
   (`manage_fullplot_vector_index.py` lines 87-117,
    `manage_vector_index.py` lines 148-187)
   ============================================================ -/

/-- One `{path, numDimensions, similarity}` field spec of a
vector-search index definition. -/
structure FieldSpec where
  path : String
  numDimensions : Nat
  similarity : String
  deriving DecidableEq, Repr

/-- An index definition as listed by the Atlas API: its name, its
declared field specs and its reported build status. -/
structure IndexDef where
  name : String
  fields : List FieldSpec
  status : String
  deriving DecidableEq, Repr

/-- A mutating Atlas API call issued by an ensure-index run. -/
inductive ApiCall where
  | create
  | update
  deriving DecidableEq, Repr

/-- `ensure_vector_index()` of `manage_fullplot_vector_index.py`: find
the index with the desired name among the listed indexes; if present,
PATCH the desired definition when the declared field specs differ and
do nothing when they match; if absent, POST a create. -/
def ensure_vector_index_fullplot (indexes : List IndexDef)
    (desiredName : String) (desiredFields : List FieldSpec) : List ApiCall :=
  match indexes.find? (fun i => i.name == desiredName) with
  | some existing =>
    if existing.fields ≠ desiredFields then [ApiCall.update] else []
  | none => [ApiCall.create]

/-- `ensure_vector_index(index_name, fields, similarity)` of
`manage_vector_index.py`: if an index with the requested name already
exists the function prints its status, optionally waits for readiness,
and returns — it never compares field specs and never issues an update
call; only when no index of that name exists does it POST a create. -/
def ensure_vector_index_generic (indexes : List IndexDef)
    (index_name : String) (_fields : List FieldSpec) : List ApiCall :=
  match indexes.find? (fun i => i.name == index_name) with
  | some _ => []
  | none => [ApiCall.create]

/-- C7 counterexample: the generic variant (`manage_vector_index.py`,
one of the claim's two cited sources) finds an existing index whose name
matches but whose declared field specs diverge from the desired ones,
and still issues no update call, refuting the claim that divergence
triggers an update. -/
theorem ensure_index_update_on_divergence_cex :
    ([⟨"idx", [⟨"a", 1024, "cosine"⟩], "READY"⟩] :
        List IndexDef).find? (fun i => i.name == "idx")
      = some ⟨"idx", [⟨"a", 1024, "cosine"⟩], "READY"⟩ ∧
    ([⟨"a", 1024, "cosine"⟩] : List FieldSpec) ≠ [⟨"b", 8, "euclidean"⟩] ∧
    ensure_vector_index_generic [⟨"idx", [⟨"a", 1024, "cosine"⟩], "READY"⟩]
      "idx" [⟨"b", 8, "euclidean"⟩] = [] := by
  refine ⟨rfl, by decide, rfl⟩

/-- C7 (amended): when an index with the requested name exists, the
fullplot variant compares the existing index's declared field specs with
the desired ones, issues exactly one update call when they diverge and
no mutating call when they match; the generic variant of
`manage_vector_index.py` issues no create or update call at all in that
case, regardless of any field-spec divergence (it only reports status
and optionally waits for readiness). -/
theorem ensure_index_existing_behaviour (indexes : List IndexDef)
    (name : String) (desired : List FieldSpec) (existing : IndexDef)
    (hfound : indexes.find? (fun i => i.name == name) = some existing) :
    (existing.fields ≠ desired →
      ensure_vector_index_fullplot indexes name desired = [ApiCall.update]) ∧
    (existing.fields = desired →
      ensure_vector_index_fullplot indexes name desired = []) ∧
    ensure_vector_index_generic indexes name desired = [] := by
  refine ⟨fun hdiff => ?_, fun heq => ?_, ?_⟩
  · simp [ensure_vector_index_fullplot, hfound, hdiff]
  · simp [ensure_vector_index_fullplot, hfound, heq]
  · simp [ensure_vector_index_generic, hfound]

/-- C7 witness: a matching existing index with identical field specs is
a no-op for the fullplot variant and for the generic variant. -/
theorem ensure_index_existing_behaviour_witness :
    ensure_vector_index_fullplot
      [⟨"idx", [⟨"fullplot_embedding", 1024, "cosine"⟩], "READY"⟩]
      "idx" [⟨"fullplot_embedding", 1024, "cosine"⟩] = [] ∧
    ensure_vector_index_generic
      [⟨"idx", [⟨"fullplot_embedding", 1024, "cosine"⟩], "READY"⟩]
      "idx" [⟨"fullplot_embedding", 1024, "cosine"⟩] = [] :=
  ⟨(ensure_index_existing_behaviour
      [⟨"idx", [⟨"fullplot_embedding", 1024, "cosine"⟩], "READY"⟩] "idx"
      [⟨"fullplot_embedding", 1024, "cosine"⟩]
      ⟨"idx", [⟨"fullplot_embedding", 1024, "cosine"⟩], "READY"⟩
      rfl).2.1 rfl,
   (ensure_index_existing_behaviour
      [⟨"idx", [⟨"fullplot_embedding", 1024, "cosine"⟩], "READY"⟩] "idx"
      [⟨"fullplot_embedding", 1024, "cosine"⟩]
      ⟨"idx", [⟨"fullplot_embedding", 1024, "cosine"⟩], "READY"⟩
      rfl).2.2⟩

/- ============================================================
   Retrieval merge step
   (`rag_with_input.py` lines 98-118, inside `retrieve_relevant_docs`)

   all_results.sort(key=lambda x: x.get("score", 0), reverse=True)
   seen_ids = set(); unique_results = []
   for r in all_results:
       if r["_id"] not in seen_ids:
           unique_results.append(r); seen_ids.add(r["_id"])
       if len(unique_results) >= limit:
           break
   ============================================================ -/

/-- One per-field vector-search result: the document identity `_id` and
its similarity score. -/
structure SearchResult where
  _id : Nat
  score : Int
  deriving DecidableEq, Repr

/-- Descending-score order used by `sort(..., reverse=True)`. -/
def scoreGe (a b : SearchResult) : Prop := b.score ≤ a.score

instance : DecidableRel scoreGe :=
  fun a b => inferInstanceAs (Decidable (b.score ≤ a.score))

instance : IsTotal SearchResult scoreGe :=
  ⟨fun a b => (Int.le_total a.score b.score).symm⟩

instance : IsTrans SearchResult scoreGe :=
  ⟨fun _ _ _ hab hbc => le_trans hbc hab⟩

/-- The dedup-and-truncate loop over the sorted results: keep the first
occurrence of each `_id`, and stop as soon as `limit` results have been
kept (the break is checked after each iteration, even a skipping one). -/
def dedupLoop (limit : Nat) :
    List SearchResult → List Nat → List SearchResult → List SearchResult
  | [], _, acc => acc
  | r :: rs, seen, acc =>
    if r._id ∈ seen then
      if limit ≤ acc.length then acc else dedupLoop limit rs seen acc
    else
      if limit ≤ (acc ++ [r]).length then acc ++ [r]
      else dedupLoop limit rs (r._id :: seen) (acc ++ [r])

/-- The merge step of `retrieve_relevant_docs`: stable sort of the
combined per-field results by descending score, then first-occurrence
deduplication by `_id` truncated at `limit`. -/
def retrieve_relevant_docs_merge (limit : Nat)
    (all_results : List SearchResult) : List SearchResult :=
  dedupLoop limit (List.insertionSort scoreGe all_results) [] []

/-- Every kept result was an input result whose id had not been seen,
and (on a sorted input) carries the maximal score among the input
entries with its id. -/
theorem dedupLoop_mem (limit : Nat) :
    ∀ (s : List SearchResult) (seen : List Nat) (acc : List SearchResult),
      List.Pairwise scoreGe s →
      ∀ r ∈ dedupLoop limit s seen acc,
        r ∈ acc ∨ (r ∈ s ∧ r._id ∉ seen ∧
          ∀ q ∈ s, q._id = r._id → q.score ≤ r.score) := by
  intro s
  induction s with
  | nil => intro seen acc _ r hr; exact Or.inl hr
  | cons r0 rest ih =>
    intro seen acc hp r hr
    have hp1 : ∀ y ∈ rest, scoreGe r0 y := (List.pairwise_cons.mp hp).1
    have hp2 : List.Pairwise scoreGe rest := (List.pairwise_cons.mp hp).2
    simp only [dedupLoop] at hr
    by_cases hs : r0._id ∈ seen
    · rw [if_pos hs] at hr
      split at hr
      · exact Or.inl hr
      · rcases ih seen acc hp2 r hr with h | ⟨hmem, hnseen, hmax⟩
        · exact Or.inl h
        · refine Or.inr ⟨List.mem_cons_of_mem r0 hmem, hnseen, ?_⟩
          intro q hq hqid
          rcases List.mem_cons.mp hq with hq | hq
          · refine absurd ?_ hnseen
            rw [← hqid, hq]
            exact hs
          · exact hmax q hq hqid
    · rw [if_neg hs] at hr
      have hr0 : r = r0 →
          r ∈ r0 :: rest ∧ r._id ∉ seen ∧
            ∀ q ∈ r0 :: rest, q._id = r._id → q.score ≤ r.score := by
        intro he
        subst he
        refine ⟨List.mem_cons_self r rest, hs, ?_⟩
        intro q hq _
        rcases List.mem_cons.mp hq with hq | hq
        · rw [hq]
        · exact hp1 q hq
      split at hr
      · rcases List.mem_append.mp hr with h | h
        · exact Or.inl h
        · exact Or.inr (hr0 (List.mem_singleton.mp h))
      · rcases ih (r0._id :: seen) (acc ++ [r0]) hp2 r hr
          with h | ⟨hmem, hnseen, hmax⟩
        · rcases List.mem_append.mp h with h | h
          · exact Or.inl h
          · exact Or.inr (hr0 (List.mem_singleton.mp h))
        · have hne : r._id ≠ r0._id := fun he =>
            hnseen (he ▸ List.mem_cons_self r0._id seen)
          have hnseen' : r._id ∉ seen := fun he =>
            hnseen (List.mem_cons_of_mem _ he)
          refine Or.inr ⟨List.mem_cons_of_mem r0 hmem, hnseen', ?_⟩
          intro q hq hqid
          rcases List.mem_cons.mp hq with hq | hq
          · refine absurd ?_ hne
            rw [← hqid, hq]
          · exact hmax q hq hqid

/-- The kept ids are pairwise distinct. -/
theorem dedupLoop_nodup (limit : Nat) :
    ∀ (s : List SearchResult) (seen : List Nat) (acc : List SearchResult),
      (acc.map SearchResult._id).Nodup →
      (∀ a ∈ acc, a._id ∈ seen) →
      ((dedupLoop limit s seen acc).map SearchResult._id).Nodup := by
  intro s
  induction s with
  | nil => intro seen acc hnd _; exact hnd
  | cons r0 rest ih =>
    intro seen acc hnd hsub
    simp only [dedupLoop]
    by_cases hs : r0._id ∈ seen
    · rw [if_pos hs]
      split
      · exact hnd
      · exact ih seen acc hnd hsub
    · rw [if_neg hs]
      have hnd' : ((acc ++ [r0]).map SearchResult._id).Nodup := by
        rw [List.map_append, List.map_singleton]
        refine List.Nodup.append hnd (List.nodup_singleton _) ?_
        intro x hx hy
        rw [List.mem_singleton] at hy
        subst hy
        rcases List.mem_map.mp hx with ⟨a, ha, hid⟩
        exact hs (hid ▸ hsub a ha)
      have hsub' : ∀ a ∈ acc ++ [r0], a._id ∈ r0._id :: seen := by
        intro a ha
        rcases List.mem_append.mp ha with h | h
        · exact List.mem_cons_of_mem _ (hsub a h)
        · rw [List.mem_singleton] at h
          subst h
          exact List.mem_cons_self _ _
      split
      · exact hnd'
      · exact ih (r0._id :: seen) (acc ++ [r0]) hnd' hsub'

/-- The break keeps the output within `limit` (for `limit ≥ 1`). -/
theorem dedupLoop_length (limit : Nat) :
    ∀ (s : List SearchResult) (seen : List Nat) (acc : List SearchResult),
      acc.length < limit → (dedupLoop limit s seen acc).length ≤ limit := by
  intro s
  induction s with
  | nil => intro seen acc h; exact le_of_lt h
  | cons r0 rest ih =>
    intro seen acc h
    simp only [dedupLoop]
    by_cases hs : r0._id ∈ seen
    · rw [if_pos hs]
      split
      · exact le_of_lt h
      · exact ih seen acc h
    · rw [if_neg hs]
      split
      · rw [List.length_append, List.length_singleton]
        omega
      · rename_i hstop
        rw [List.length_append, List.length_singleton] at hstop
        exact ih (r0._id :: seen) (acc ++ [r0])
          (by rw [List.length_append, List.length_singleton]; omega)

/-- The output never shrinks below the accumulator. -/
theorem dedupLoop_length_mono (limit : Nat) :
    ∀ (s : List SearchResult) (seen : List Nat) (acc : List SearchResult),
      acc.length ≤ (dedupLoop limit s seen acc).length := by
  intro s
  induction s with
  | nil => intro seen acc; exact le_refl _
  | cons r0 rest ih =>
    intro seen acc
    simp only [dedupLoop]
    by_cases hs : r0._id ∈ seen
    · rw [if_pos hs]
      split
      · exact le_refl _
      · exact ih seen acc
    · rw [if_neg hs]
      have hgrow : acc.length ≤ (acc ++ [r0]).length := by
        rw [List.length_append]; omega
      split
      · exact hgrow
      · exact le_trans hgrow (ih (r0._id :: seen) (acc ++ [r0]))

/-- The kept results stay sorted by descending score. -/
theorem dedupLoop_sorted (limit : Nat) :
    ∀ (s : List SearchResult) (seen : List Nat) (acc : List SearchResult),
      List.Pairwise scoreGe s → List.Pairwise scoreGe acc →
      (∀ a ∈ acc, ∀ b ∈ s, scoreGe a b) →
      List.Pairwise scoreGe (dedupLoop limit s seen acc) := by
  intro s
  induction s with
  | nil => intro seen acc _ hacc _; exact hacc
  | cons r0 rest ih =>
    intro seen acc hp hacc hcross
    have hp1 : ∀ y ∈ rest, scoreGe r0 y := (List.pairwise_cons.mp hp).1
    have hp2 : List.Pairwise scoreGe rest := (List.pairwise_cons.mp hp).2
    have hcross' : ∀ a ∈ acc, ∀ b ∈ rest, scoreGe a b :=
      fun a ha b hb => hcross a ha b (List.mem_cons_of_mem r0 hb)
    have hacc' : List.Pairwise scoreGe (acc ++ [r0]) := by
      rw [List.pairwise_append]
      refine ⟨hacc, List.pairwise_singleton _ _, ?_⟩
      intro a ha b hb
      rw [List.mem_singleton] at hb
      rw [hb]
      exact hcross a ha r0 (List.mem_cons_self r0 rest)
    have hcross'' : ∀ a ∈ acc ++ [r0], ∀ b ∈ rest, scoreGe a b := by
      intro a ha b hb
      rcases List.mem_append.mp ha with h | h
      · exact hcross' a h b hb
      · rw [List.mem_singleton] at h
        subst h
        exact hp1 b hb
    simp only [dedupLoop]
    by_cases hs : r0._id ∈ seen
    · rw [if_pos hs]
      split
      · exact hacc
      · exact ih seen acc hp2 hacc hcross'
    · rw [if_neg hs]
      split
      · exact hacc'
      · exact ih (r0._id :: seen) (acc ++ [r0]) hp2 hacc' hcross''

/-- A non-empty sorted input always yields at least one kept result. -/
theorem dedupLoop_ne_nil (limit : Nat) (r : SearchResult)
    (rs : List SearchResult) :
    dedupLoop limit (r :: rs) [] [] ≠ [] := by
  simp only [dedupLoop]
  rw [if_neg (List.not_mem_nil r._id)]
  split
  · simp
  · have h1 : (([] : List SearchResult) ++ [r]).length ≤
        (dedupLoop limit rs [r._id] ([] ++ [r])).length :=
      dedupLoop_length_mono limit rs [r._id] ([] ++ [r])
    intro hc
    rw [hc] at h1
    simp at h1

/-- C4 (amended, requested limit ≥ 1): the merge step keeps each
document identity at most once, stays sorted by descending score,
returns at most `limit` results, every returned result is an input
result carrying the maximum score among all input entries with its
identity (so an identity matched by two fields appears once, at the
higher of its two scores), and a non-empty input yields a non-empty
output.  For `limit = 0` the loop's post-append break makes it return
one result instead of zero, refuting the unrestricted truncation
claim. -/
theorem retrieve_merge_spec (limit : Nat) (l : List SearchResult)
    (hlim : 1 ≤ limit) :
    (retrieve_relevant_docs_merge limit l).length ≤ limit ∧
    ((retrieve_relevant_docs_merge limit l).map SearchResult._id).Nodup ∧
    List.Pairwise scoreGe (retrieve_relevant_docs_merge limit l) ∧
    (∀ r ∈ retrieve_relevant_docs_merge limit l,
      r ∈ l ∧ ∀ q ∈ l, q._id = r._id → q.score ≤ r.score) ∧
    (l ≠ [] → retrieve_relevant_docs_merge limit l ≠ []) := by
  have hperm : (List.insertionSort scoreGe l).Perm l :=
    List.perm_insertionSort scoreGe l
  have hsorted : List.Pairwise scoreGe (List.insertionSort scoreGe l) :=
    List.sorted_insertionSort scoreGe l
  refine ⟨dedupLoop_length limit _ [] [] (by simp; omega),
    dedupLoop_nodup limit _ [] [] (by simp) (by simp), ?_, ?_, ?_⟩
  · exact dedupLoop_sorted limit _ [] [] hsorted (List.Pairwise.nil)
      (by simp)
  · intro r hr
    rcases dedupLoop_mem limit _ [] [] hsorted r hr
      with h | ⟨hmem, _, hmax⟩
    · exact absurd h (List.not_mem_nil r)
    · refine ⟨hperm.mem_iff.mp hmem, ?_⟩
      intro q hq hqid
      exact hmax q (hperm.mem_iff.mpr hq) hqid
  · intro hne
    cases hsort : List.insertionSort scoreGe l with
    | nil =>
      exfalso
      apply hne
      have := hperm.length_eq
      rw [hsort] at this
      exact List.eq_nil_of_length_eq_zero this.symm
    | cons r rs =>
      unfold retrieve_relevant_docs_merge
      rw [hsort]
      exact dedupLoop_ne_nil limit r rs

/-- C4 counterexample: with `limit = 0` and a single input result, the
merge returns that result (length 1), not an empty list — the output is
not truncated to the requested limit because the break fires only after
the first append. -/
theorem retrieve_merge_spec_cex :
    retrieve_relevant_docs_merge 0 [⟨1, 5⟩] = [⟨1, 5⟩] ∧
    ¬ ((retrieve_relevant_docs_merge 0 [⟨1, 5⟩]).length ≤ 0) := by
  constructor
  · rfl
  · decide

/-- C4 witness: the same identity matched by two fields with scores 5
and 7 is merged into a single result. -/
theorem retrieve_merge_spec_witness :
    (retrieve_relevant_docs_merge 3 [⟨1, 5⟩, ⟨1, 7⟩]).length ≤ 3 ∧
    ((retrieve_relevant_docs_merge 3 [⟨1, 5⟩, ⟨1, 7⟩]).map
      SearchResult._id).Nodup :=
  ⟨(retrieve_merge_spec 3 [⟨1, 5⟩, ⟨1, 7⟩] (by decide)).1,
   (retrieve_merge_spec 3 [⟨1, 5⟩, ⟨1, 7⟩] (by decide)).2.1⟩

/- ============================================================
   Python/BSON value model and `extract_value`
   (`update_voyage_ai_embeddings.py` lines 50-62)

   def extract_value(doc, path):
       parts = path.split(".")
       value = doc
       for p in parts:
           if isinstance(value, list):
               value = value[0] if value else {}
           if not isinstance(value, dict) or p not in value:
               return ""
           value = value[p]
       if isinstance(value, list):
           value = ", ".join(str(v) for v in value)
       return str(value).strip() if value else ""
   ============================================================ -/

/-- A Python value as stored in a document: `None`, a string, a number,
a list, or a dict with string keys. -/
inductive PyVal where
  | pyNone : PyVal
  | pyStr : String → PyVal
  | pyNum : Int → PyVal
  | pyList : List PyVal → PyVal
  | pyDict : List (String × PyVal) → PyVal

mutual

/-- Python `repr()` of a value (used by `str()` inside containers). -/
def pyReprOf : PyVal → String
  | .pyNone => "None"
  | .pyStr s => "'" ++ s ++ "'"
  | .pyNum n => toString n
  | .pyList l => "[" ++ pyReprList l ++ "]"
  | .pyDict es => "\x7b" ++ pyReprDict es ++ "\x7d"

/-- Comma-joined `repr()`s of the elements of a list. -/
def pyReprList : List PyVal → String
  | [] => ""
  | [v] => pyReprOf v
  | v :: vs => pyReprOf v ++ ", " ++ pyReprList vs

/-- Comma-joined `'key': repr(value)` items of a dict. -/
def pyReprDict : List (String × PyVal) → String
  | [] => ""
  | [(k, v)] => "'" ++ k ++ "': " ++ pyReprOf v
  | (k, v) :: es => "'" ++ k ++ "': " ++ pyReprOf v ++ ", " ++ pyReprDict es

end

/-- Python `str()`: a string renders as itself, everything else as its
`repr()`. -/
def pyStrOf : PyVal → String
  | .pyStr s => s
  | v => pyReprOf v

/-- Python truthiness of a value. -/
def pyTruthy : PyVal → Bool
  | .pyNone => false
  | .pyStr s => !s.isEmpty
  | .pyNum n => n != 0
  | .pyList l => !l.isEmpty
  | .pyDict es => !es.isEmpty

/-- Python `l[0]` on a list: `none` models an `IndexError`. -/
def pyIndex0 : List PyVal → Option PyVal
  | [] => none
  | v :: _ => some v

/-- Python `p in d` on a dict. -/
def pyDictHasKey (es : List (String × PyVal)) (p : String) : Bool :=
  es.any (fun e => e.1 == p)

/-- Python `d[p]` on a dict: `none` models a `KeyError`. -/
def pyDictLookup : List (String × PyVal) → String → Option PyVal
  | [], _ => none
  | (k, v) :: es, p => if k = p then some v else pyDictLookup es p

/-- The array-collapse step at the top of each loop iteration:
`if isinstance(value, list): value = value[0] if value else {}`. -/
def listHop (value : PyVal) : Option PyVal :=
  match value with
  | .pyList l => if pyTruthy (.pyList l) then pyIndex0 l else some (.pyDict [])
  | v => some v

/-- The post-loop conversion: a final list is comma-joined; a falsy
final value yields `""`, otherwise `str(value).strip()`. -/
def pyFinal (value : PyVal) : String :=
  match value with
  | .pyList l =>
    let j := String.intercalate ", " (l.map pyStrOf)
    if j.isEmpty then "" else j.trim
  | v => if pyTruthy v then (pyStrOf v).trim else ""

/-- The loop of `extract_value` over the split path parts.  The result
`none` models an uncaught exception (`IndexError`/`KeyError`); the
guards in the source make both unreachable, which `extractLoop_isSome`
proves. -/
def extractLoop : List String → PyVal → Option String
  | [], value => some (pyFinal value)
  | p :: ps, value =>
    match listHop value with
    | none => none
    | some (.pyDict entries) =>
      if pyDictHasKey entries p then
        match pyDictLookup entries p with
        | some v2 => extractLoop ps v2
        | none => none
      else some ""
    | some _ => some ""

/-- `extract_value(doc, path)`. -/
def extract_value (doc : PyVal) (path : String) : Option String :=
  extractLoop (path.splitOn ".") doc

theorem listHop_isSome (v : PyVal) : (listHop v).isSome = true := by
  cases v with
  | pyList l => cases l <;> rfl
  | pyNone => rfl
  | pyStr s => rfl
  | pyNum n => rfl
  | pyDict es => rfl

theorem pyDictLookup_isSome_of_hasKey :
    ∀ (es : List (String × PyVal)) (p : String),
      pyDictHasKey es p = true → (pyDictLookup es p).isSome = true := by
  intro es
  induction es with
  | nil => intro p h; simp [pyDictHasKey] at h
  | cons e es ih =>
    intro p h
    obtain ⟨k, v⟩ := e
    simp only [pyDictLookup]
    by_cases hk : k = p
    · rw [if_pos hk]; rfl
    · rw [if_neg hk]
      apply ih
      simp only [pyDictHasKey, List.any_cons, Bool.or_eq_true] at h
      rcases h with h | h
      · exact absurd (by simpa using h) hk
      · simpa [pyDictHasKey] using h

/-- C9: `extract_value` is total — for every document value and every
dotted path it produces a string (never the `none` that models an
uncaught `IndexError`/`KeyError`): the emptiness guard covers the
`value[0]` indexing and the `p in value` guard covers the `value[p]`
access, and the non-dict, missing-key and falsy-final cases all fall
back to the empty string. -/
theorem extract_value_total (doc : PyVal) (path : String) :
    (extract_value doc path).isSome = true := by
  suffices h : ∀ (parts : List String) (value : PyVal),
      (extractLoop parts value).isSome = true from
    h (path.splitOn ".") doc
  intro parts
  induction parts with
  | nil => intro value; rfl
  | cons p ps ih =>
    intro value
    simp only [extractLoop]
    cases hlh : listHop value with
    | none =>
      have := listHop_isSome value
      rw [hlh] at this
      simp at this
    | some v1 =>
      cases v1 with
      | pyDict entries =>
        simp only
        by_cases hk : pyDictHasKey entries p = true
        · rw [if_pos hk]
          cases hl : pyDictLookup entries p with
          | some v2 => exact ih v2
          | none =>
            have := pyDictLookup_isSome_of_hasKey entries p hk
            rw [hl] at this
            simp at this
        · rw [if_neg hk]
          rfl
      | pyNone => rfl
      | pyStr s => rfl
      | pyNum n => rfl
      | pyList l => rfl

/-- C5: the path walk of `extract_value` takes the first element at
each array hop — the tail of the array is ignored entirely — an empty
array at a hop, a missing key, and a non-dict value at a key hop all
resolve to the empty string (not an error, and not any flattening of
the remaining tree). -/
theorem extract_value_first_element_only (doc : PyVal) (p : String)
    (path : String) (ps : List String) (x : PyVal) (xs ys : List PyVal)
    (entries : List (String × PyVal)) (s : String) (n : Int)
    (hmiss : pyDictHasKey entries p = false) :
    extract_value doc path = extractLoop (path.splitOn ".") doc ∧
    extractLoop (p :: ps) (PyVal.pyList (x :: xs))
      = extractLoop (p :: ps) (PyVal.pyList (x :: ys)) ∧
    extractLoop (p :: ps) (PyVal.pyList []) = some "" ∧
    extractLoop (p :: ps) (PyVal.pyDict entries) = some "" ∧
    extractLoop (p :: ps) (PyVal.pyStr s) = some "" ∧
    extractLoop (p :: ps) (PyVal.pyNum n) = some "" ∧
    extractLoop (p :: ps) PyVal.pyNone = some "" := by
  refine ⟨rfl, rfl, rfl, ?_, rfl, rfl, rfl⟩
  simp only [extractLoop, listHop]
  rw [if_neg (by rw [hmiss]; exact Bool.false_ne_true)]

/-- C5 witness: an empty array hop and a missing key both yield `""`,
and the walk on `[x, junk]` equals the walk on `[x]`. -/
theorem extract_value_first_element_only_witness :
    extractLoop ["a"] (PyVal.pyList []) = some "" ∧
    extractLoop ["a"] (PyVal.pyDict [("b", PyVal.pyNum 2)]) = some "" ∧
    extractLoop ["a"] (PyVal.pyList [PyVal.pyNum 1, PyVal.pyNum 9])
      = extractLoop ["a"] (PyVal.pyList [PyVal.pyNum 1]) :=
  ⟨(extract_value_first_element_only PyVal.pyNone "a" "a" []
      (PyVal.pyNum 1) [PyVal.pyNum 9] [] [("b", PyVal.pyNum 2)] "t" 5
      (by decide)).2.2.1,
   (extract_value_first_element_only PyVal.pyNone "a" "a" []
      (PyVal.pyNum 1) [PyVal.pyNum 9] [] [("b", PyVal.pyNum 2)] "t" 5
      (by decide)).2.2.2.1,
   (extract_value_first_element_only PyVal.pyNone "a" "a" []
      (PyVal.pyNum 1) [PyVal.pyNum 9] [] [("b", PyVal.pyNum 2)] "t" 5
      (by decide)).2.1⟩

/- ============================================================
   Backfill scan predicates and document updates
   (`update_embeddings.py` lines 39-43: find filter
      \x7b"fullplot": \x7b"$exists": True\x7d,
        "fullplot_embedding": \x7b"$exists": False\x7d\x7d;
    `update_voyage_ai_embeddings.py` lines 135-166: find filter
      \x7bpath: \x7b"$exists": True\x7d,
       "$or": [\x7bname: \x7b"$exists": False\x7d\x7d, \x7bname: None\x7d,
              \x7bname: \x7b"$eq": []\x7d\x7d, \x7bname: \x7b"$eq": \x7b\x7d\x7d\x7d]\x7d,
    with a `data.$elemMatch` source clause for dotted paths) and the
   `$set` update writing \x7bname: emb, embedding_model, embedding_updated_at\x7d.
   ============================================================ -/

/-- A document: its top-level fields. -/
def MongoDoc : Type := List (String × PyVal)

/-- `{f: {$exists: True}}`. -/
def hasField (d : MongoDoc) (f : String) : Bool :=
  (pyDictLookup d f).isSome

/-- `{f: None}` — MongoDB matches both a null value and a missing field. -/
def fieldIsNullOrMissing (d : MongoDoc) (f : String) : Bool :=
  match pyDictLookup d f with
  | none => true
  | some .pyNone => true
  | some _ => false

/-- `{f: {$eq: []}}` — MongoDB matches an array value that is empty or
contains an empty array as an element. -/
def fieldEqEmptyList (d : MongoDoc) (f : String) : Bool :=
  match pyDictLookup d f with
  | some (.pyList l) =>
    l.isEmpty || l.any (fun v => match v with
      | .pyList m => m.isEmpty
      | _ => false)
  | _ => false

/-- `{f: {$eq: {}}}` — MongoDB matches an empty document value or an
array containing an empty document. -/
def fieldEqEmptyDict (d : MongoDoc) (f : String) : Bool :=
  match pyDictLookup d f with
  | some (.pyDict es) => es.isEmpty
  | some (.pyList l) =>
    l.any (fun v => match v with
      | .pyDict es => es.isEmpty
      | _ => false)
  | _ => false

/-- The `$or` block of the diagnostic variant: target absent, null,
empty array, or empty document. -/
def targetMissingVoyage (d : MongoDoc) (name : String) : Bool :=
  !hasField d name || fieldIsNullOrMissing d name ||
    fieldEqEmptyList d name || fieldEqEmptyDict d name

/-- Scan predicate of `update_embeddings.py`: source `fullplot` exists
and target `fullplot_embedding` does not. -/
def scanMatchMain (d : MongoDoc) : Bool :=
  hasField d "fullplot" && !hasField d "fullplot_embedding"

/-- Scan predicate of `update_voyage_ai_embeddings.py` for a top-level
source path. -/
def scanMatchVoyage (d : MongoDoc) (path name : String) : Bool :=
  hasField d path && targetMissingVoyage d name

/-- `{"data": {$elemMatch: {subfield: {$exists: True}}}}` of the dotted
source-path branch. -/
def dataElemMatch (d : MongoDoc) (subfield : String) : Bool :=
  match pyDictLookup d "data" with
  | some (.pyList l) =>
    l.any (fun v => match v with
      | .pyDict es => pyDictHasKey es subfield
      | _ => false)
  | _ => false

/-- Scan predicate of `update_voyage_ai_embeddings.py` for a dotted
`data.`-prefixed source path. -/
def scanMatchVoyageNested (d : MongoDoc) (subfield name : String) : Bool :=
  dataElemMatch d subfield && targetMissingVoyage d name

/-- `$set` of one top-level field: replace in place or append. -/
def setField : MongoDoc → String → PyVal → MongoDoc
  | [], f, v => [(f, v)]
  | (k, w) :: es, f, v =>
    if k = f then (f, v) :: es else (k, w) :: setField es f v

/-- The `$set` document of one update op: the embedding field plus the
`embedding_model` and `embedding_updated_at` provenance fields. -/
def applyUpdate (name : String) (emb : PyVal) (model ts : String)
    (d : MongoDoc) : MongoDoc :=
  setField (setField (setField d name emb)
    "embedding_model" (.pyStr model)) "embedding_updated_at" (.pyStr ts)

/-- The effect of one backfill run of `update_embeddings.py` on one
document: update it exactly when the scan predicate selects it. -/
def backfillStepMain (emb : PyVal) (model ts : String) (d : MongoDoc) :
    MongoDoc :=
  if scanMatchMain d then applyUpdate "fullplot_embedding" emb model ts d
  else d

/-- The effect of one backfill run of `update_voyage_ai_embeddings.py`
(top-level path) on one document. -/
def backfillStepVoyage (path name : String) (emb : PyVal)
    (model ts : String) (d : MongoDoc) : MongoDoc :=
  if scanMatchVoyage d path name then applyUpdate name emb model ts d
  else d

/-- One backfill run over a whole collection. -/
def runBackfillMain (emb : PyVal) (model ts : String)
    (coll : List MongoDoc) : List MongoDoc :=
  coll.map (backfillStepMain emb model ts)

/-- An actual embedding value: a non-empty array of numbers. -/
def isEmbeddingValue : PyVal → Bool
  | .pyList l =>
    !l.isEmpty && l.all (fun v => match v with
      | .pyNum _ => true
      | _ => false)
  | _ => false

theorem pyDictLookup_setField_self :
    ∀ (d : MongoDoc) (f : String) (v : PyVal),
      pyDictLookup (setField d f v) f = some v := by
  intro d
  induction d with
  | nil => intro f v; simp [setField, pyDictLookup]
  | cons e es ih =>
    intro f v
    obtain ⟨k, w⟩ := e
    by_cases hk : k = f
    · simp [setField, hk, pyDictLookup]
    · simp [setField, hk, pyDictLookup, ih f v]

theorem pyDictLookup_setField_other :
    ∀ (d : MongoDoc) (f f' : String) (v : PyVal), f' ≠ f →
      pyDictLookup (setField d f v) f' = pyDictLookup d f' := by
  intro d
  induction d with
  | nil =>
    intro f f' v hne
    simp [setField, pyDictLookup, Ne.symm hne]
  | cons e es ih =>
    intro f f' v hne
    obtain ⟨k, w⟩ := e
    by_cases hk : k = f
    · subst hk
      simp [setField, pyDictLookup, Ne.symm hne]
    · simp [setField, hk, pyDictLookup, ih f f' v hne]

/-- A field holding an actual embedding matches none of the `$or`
clauses of the diagnostic scan predicate. -/
theorem targetMissingVoyage_false_of_embedding (d : MongoDoc)
    (name : String) (v : PyVal) (hv : pyDictLookup d name = some v)
    (hgood : isEmbeddingValue v = true) :
    targetMissingVoyage d name = false := by
  cases v with
  | pyList l =>
    simp only [isEmbeddingValue, Bool.and_eq_true] at hgood
    obtain ⟨hne, hall⟩ := hgood
    have hq1 : (l.any fun v => match v with
        | PyVal.pyList m => m.isEmpty
        | _ => false) = false := by
      cases hany : (l.any fun v => match v with
          | PyVal.pyList m => m.isEmpty
          | _ => false) with
      | false => rfl
      | true =>
        exfalso
        obtain ⟨x, hx, hqx⟩ := List.any_eq_true.mp hany
        have hx2 := List.all_eq_true.mp hall x hx
        cases x <;> simp_all
    have hq2 : (l.any fun v => match v with
        | PyVal.pyDict es => es.isEmpty
        | _ => false) = false := by
      cases hany : (l.any fun v => match v with
          | PyVal.pyDict es => es.isEmpty
          | _ => false) with
      | false => rfl
      | true =>
        exfalso
        obtain ⟨x, hx, hqx⟩ := List.any_eq_true.mp hany
        have hx2 := List.all_eq_true.mp hall x hx
        cases x <;> simp_all
    simp [targetMissingVoyage, hasField, fieldIsNullOrMissing,
      fieldEqEmptyList, fieldEqEmptyDict, hv, hq1, hq2]
    simpa using hne
  | pyNone => simp [isEmbeddingValue] at hgood
  | pyStr s => simp [isEmbeddingValue] at hgood
  | pyNum n => simp [isEmbeddingValue] at hgood
  | pyDict es => simp [isEmbeddingValue] at hgood

/-- A document already holding the target field is not scanned and is
left unchanged by `update_embeddings.py`. -/
theorem backfillStepMain_fixed (emb : PyVal) (model ts : String)
    (x : MongoDoc) (hx : hasField x "fullplot_embedding" = true) :
    backfillStepMain emb model ts x = x := by
  have hm : scanMatchMain x = false := by
    simp [scanMatchMain, hx]
  simp [backfillStepMain, hm]

/-- A document whose target field holds an actual embedding is not
scanned and is left unchanged by `update_voyage_ai_embeddings.py`. -/
theorem backfillStepVoyage_fixed (path name : String) (emb : PyVal)
    (model ts : String) (x : MongoDoc) (v : PyVal)
    (hv : pyDictLookup x name = some v)
    (hgood : isEmbeddingValue v = true) :
    backfillStepVoyage path name emb model ts x = x := by
  have htm := targetMissingVoyage_false_of_embedding x name v hv hgood
  simp [backfillStepVoyage, scanMatchVoyage, htm]

/-- C6: the scan predicates select exactly source-present,
target-absent documents (target absent/null/empty in the diagnostic
variant), so a document already holding the target embedding field is
outside the scan and is unchanged by the run — per document, over a
whole collection, and under re-running either backfill (idempotent
completion marker). -/
theorem scan_predicate_idempotent (d : MongoDoc) (coll : List MongoDoc)
    (path name model ts : String) (emb v : PyVal)
    (hmain : hasField d "fullplot_embedding" = true)
    (hv : pyDictLookup d name = some v)
    (hgood : isEmbeddingValue v = true)
    (hn1 : name ≠ "embedding_model")
    (hn2 : name ≠ "embedding_updated_at")
    (hgemb : isEmbeddingValue emb = true)
    (hcoll : ∀ x ∈ coll, hasField x "fullplot_embedding" = true) :
    scanMatchMain d = false ∧
    backfillStepMain emb model ts d = d ∧
    scanMatchVoyage d path name = false ∧
    scanMatchVoyageNested d path name = false ∧
    backfillStepVoyage path name emb model ts d = d ∧
    runBackfillMain emb model ts coll = coll ∧
    (∀ x, backfillStepMain emb model ts (backfillStepMain emb model ts x)
      = backfillStepMain emb model ts x) ∧
    (∀ x, backfillStepVoyage path name emb model ts
        (backfillStepVoyage path name emb model ts x)
      = backfillStepVoyage path name emb model ts x) := by
  have htm := targetMissingVoyage_false_of_embedding d name v hv hgood
  have hlookup_upd : ∀ x : MongoDoc,
      pyDictLookup (applyUpdate name emb model ts x) name = some emb := by
    intro x
    unfold applyUpdate
    rw [pyDictLookup_setField_other _ _ _ _ hn2,
      pyDictLookup_setField_other _ _ _ _ hn1,
      pyDictLookup_setField_self]
  have hcomp_voyage : ∀ x, backfillStepVoyage path name emb model ts
      (backfillStepVoyage path name emb model ts x)
      = backfillStepVoyage path name emb model ts x := by
    intro x
    by_cases hx : scanMatchVoyage x path name = true
    · have h1 : backfillStepVoyage path name emb model ts x
          = applyUpdate name emb model ts x := by
        simp [backfillStepVoyage, hx]
      rw [h1]
      exact backfillStepVoyage_fixed path name emb model ts _ emb
        (hlookup_upd x) hgemb
    · have h0 : backfillStepVoyage path name emb model ts x = x := by
        simp [backfillStepVoyage,
          (Bool.not_eq_true _).mp hx]
      rw [h0, h0]
  have hlookup_upd_main : ∀ x : MongoDoc,
      pyDictLookup (applyUpdate "fullplot_embedding" emb model ts x)
        "fullplot_embedding" = some emb := by
    intro x
    unfold applyUpdate
    rw [pyDictLookup_setField_other _ _ _ _ (by decide),
      pyDictLookup_setField_other _ _ _ _ (by decide),
      pyDictLookup_setField_self]
  have hcomp_main : ∀ x, backfillStepMain emb model ts
      (backfillStepMain emb model ts x) = backfillStepMain emb model ts x := by
    intro x
    by_cases hx : scanMatchMain x = true
    · have h1 : backfillStepMain emb model ts x
          = applyUpdate "fullplot_embedding" emb model ts x := by
        simp [backfillStepMain, hx]
      rw [h1]
      apply backfillStepMain_fixed
      rw [hasField, hlookup_upd_main x]
      rfl
    · have h0 : backfillStepMain emb model ts x = x := by
        simp [backfillStepMain, (Bool.not_eq_true _).mp hx]
      rw [h0, h0]
  have hrun : runBackfillMain emb model ts coll = coll := by
    unfold runBackfillMain
    induction coll with
    | nil => rfl
    | cons c cs ihc =>
      rw [List.map_cons,
        backfillStepMain_fixed emb model ts c
          (hcoll c (List.mem_cons_self c cs)),
        ihc (fun x hx => hcoll x (List.mem_cons_of_mem c hx))]
  refine ⟨by simp [scanMatchMain, hmain],
    backfillStepMain_fixed emb model ts d hmain,
    by simp [scanMatchVoyage, htm],
    by simp [scanMatchVoyageNested, htm],
    backfillStepVoyage_fixed path name emb model ts d v hv hgood,
    hrun, hcomp_main, hcomp_voyage⟩

/-- C6 witness: a document with both `fullplot_embedding` and a
`usr_embedding` vector present is untouched by either backfill. -/
theorem scan_predicate_idempotent_witness :
    backfillStepMain (PyVal.pyList [PyVal.pyNum 3]) "voyage-3-large" "t"
      [("fullplot", PyVal.pyStr "plot"),
       ("fullplot_embedding", PyVal.pyList [PyVal.pyNum 1]),
       ("usr", PyVal.pyStr "alice"),
       ("usr_embedding", PyVal.pyList [PyVal.pyNum 2])]
      = [("fullplot", PyVal.pyStr "plot"),
         ("fullplot_embedding", PyVal.pyList [PyVal.pyNum 1]),
         ("usr", PyVal.pyStr "alice"),
         ("usr_embedding", PyVal.pyList [PyVal.pyNum 2])] ∧
    backfillStepVoyage "usr" "usr_embedding" (PyVal.pyList [PyVal.pyNum 3])
      "voyage-3-large" "t"
      [("fullplot", PyVal.pyStr "plot"),
       ("fullplot_embedding", PyVal.pyList [PyVal.pyNum 1]),
       ("usr", PyVal.pyStr "alice"),
       ("usr_embedding", PyVal.pyList [PyVal.pyNum 2])]
      = [("fullplot", PyVal.pyStr "plot"),
         ("fullplot_embedding", PyVal.pyList [PyVal.pyNum 1]),
         ("usr", PyVal.pyStr "alice"),
         ("usr_embedding", PyVal.pyList [PyVal.pyNum 2])] :=
  ⟨(scan_predicate_idempotent
      [("fullplot", PyVal.pyStr "plot"),
       ("fullplot_embedding", PyVal.pyList [PyVal.pyNum 1]),
       ("usr", PyVal.pyStr "alice"),
       ("usr_embedding", PyVal.pyList [PyVal.pyNum 2])]
      [] "usr" "usr_embedding" "voyage-3-large" "t"
      (PyVal.pyList [PyVal.pyNum 3]) (PyVal.pyList [PyVal.pyNum 2])
      rfl rfl rfl (by decide) (by decide) rfl
      (fun x hx => absurd hx (List.not_mem_nil x))).2.1,
   (scan_predicate_idempotent
      [("fullplot", PyVal.pyStr "plot"),
       ("fullplot_embedding", PyVal.pyList [PyVal.pyNum 1]),
       ("usr", PyVal.pyStr "alice"),
       ("usr_embedding", PyVal.pyList [PyVal.pyNum 2])]
      [] "usr" "usr_embedding" "voyage-3-large" "t"
      (PyVal.pyList [PyVal.pyNum 3]) (PyVal.pyList [PyVal.pyNum 2])
      rfl rfl rfl (by decide) (by decide) rfl
      (fun x hx => absurd hx (List.not_mem_nil x))).2.2.2.2.1⟩
